import Mathlib

/-!
Verification of the changed-files tree builder / transformer of
`src/explorerViewProvider.ts` (githd).

The development shallowly embeds the TypeScript source: each TypeScript
function becomes a Lean function over explicit data.  `TreeItem` presentation
fields that the algorithms never read (icons, commands, collapsible state) are
omitted; the fields the algorithms do read (`label`, `gitRelativePath`,
`uri.fsPath`, `status`, `subFolders`, `files`) are kept.  In-place mutation is
modelled by returning the updated node; JavaScript `undefined` entries and
`null` statuses are modelled with `Option`-like types.
-/

namespace GitHD

/-! ### JavaScript / Node.js string and path primitives -/

/-- Splits a character list at every character satisfying `sep`, keeping empty
segments, as JavaScript `String.prototype.split` does with a single-character
(or character-alternative) pattern: `"a//b"` gives `["a", "", "b"]` and `""`
gives `[""]`. -/
def splitOnPred (sep : Char → Bool) : List Char → List (List Char)
  | [] => [[]]
  | a :: as =>
    match splitOnPred sep as with
    | s :: ss => if sep a then [] :: s :: ss else (a :: s) :: ss
    | [] => [[]]

/-- Joins character-list segments with the character `c`; the inverse of
`splitOnPred (· == c)`. -/
def joinChar (c : Char) : List (List Char) → List Char
  | [] => []
  | [s] => s
  | s :: ss => s ++ c :: joinChar c ss

/-- Models the JavaScript expression `s.split('/')`. -/
def jsSplitOnSlash (s : String) : List String :=
  (splitOnPred (fun c => c == '/') s.data).map (fun l => String.mk l)

/-- Models the JavaScript expression `s.split(/\\|\//)`: split at every
backslash or forward slash. -/
def jsSplitOnSeps (s : String) : List String :=
  (splitOnPred (fun c => c == '\\' || c == '/') s.data).map (fun l => String.mk l)

/-- Models the JavaScript expression `s.replace(/\\/g, '/')`: every backslash
becomes a forward slash. -/
def replaceBackslashes (s : String) : String :=
  String.mk (s.data.map (fun c => if c = '\\' then '/' else c))

/-- Node.js `path.basename` for POSIX paths: trailing separators are ignored
and the portion after the last remaining separator is returned. -/
def basename (p : String) : String :=
  let trimmed := (p.data.reverse.dropWhile (fun c => c == '/')).reverse
  String.mk ((trimmed.reverse.takeWhile (fun c => c != '/')).reverse)

/-- Scanning loop of Node.js `path.dirname` (POSIX): walking indices downward
(excluding index 0), returns the index of the last separator that is followed
by a non-separator character.  The input is the reversed `enum` of the path's
characters; the flag records whether only separators have been seen so far. -/
def dirnameScan : List (Nat × Char) → Bool → Option Nat
  | [], _ => none
  | (i, c) :: rest, matchedSlash =>
    if i = 0 then none
    else if c = '/' then
      if matchedSlash then dirnameScan rest true else some i
    else dirnameScan rest false

/-- Node.js `path.dirname` for POSIX paths: `"."` when the path has no
directory part, otherwise everything before the final separator, with
trailing separators skipped first. -/
def dirname (p : String) : String :=
  match p.data with
  | [] => "."
  | c0 :: _ =>
    let hasRoot := c0 = '/'
    match dirnameScan p.data.enum.reverse true with
    | none => if hasRoot then "/" else "."
    | some e => if hasRoot ∧ e = 1 then "//" else String.mk (p.data.take e)

/-- Segment normalization performed by Node.js `path.resolve` on a path that is
relative to the working directory: empty and `"."` segments disappear and
`".."` pops the previous segment.  Paths are assumed not to escape above the
working directory, which holds for every path this module handles. -/
def normSegs (p : String) : List String :=
  (jsSplitOnSlash p).foldl
    (fun acc s =>
      if s = "" ∨ s = "." then acc
      else if s = ".." then acc.dropLast
      else acc ++ [s])
    []

/-- Length of the longest common segment run of two segment lists. -/
def commonLen : List String → List String → Nat
  | a :: as, b :: bs => if a = b then commonLen as bs + 1 else 0
  | _, _ => 0

/-- Node.js `path.relative(f, t)` for POSIX paths, with both arguments
resolved against the same working directory: drop the common leading
segments, then one `".."` per remaining segment of `f` followed by the
remaining segments of `t`. -/
def pathRelative (f t : String) : String :=
  let fs := normSegs f
  let ts := normSegs t
  let k := commonLen fs ts
  String.intercalate "/" (List.replicate (fs.length - k) ".." ++ ts.drop k)

/-- The line-terminator characters, which the JavaScript `.` wildcard does
not match. -/
def isLineTerminator (c : Char) : Bool :=
  c == '\n' || c == '\r' || c == '\u2028' || c == '\u2029'

/-- Characters a JavaScript regular expression treats as syntax rather than
as themselves (conservatively including the braces that Annex B tolerates as
literals).  `'/'` is an ordinary character when the `RegExp` is built from a
string, as `String.prototype.search` does. -/
def regexMetaChar (c : Char) : Bool :=
  c == '.' || c == '*' || c == '+' || c == '?' || c == '^' || c == '$' ||
  c == '(' || c == ')' || c == '[' || c == ']' || c == '\x7b' || c == '\x7d' ||
  c == '|' || c == '\\'

/-- An ordinary, self-matching pattern character. -/
def regexLiteralChar (c : Char) : Bool :=
  !regexMetaChar c

/-- The regular-expression fragment this development models: every pattern
character is either the `'.'` wildcard or an ordinary character.  On this
fragment the matcher below agrees exactly with JavaScript `RegExp`
matching; quantifiers, character classes, anchors, alternation, escapes and
the exception thrown on an invalid pattern lie outside the fragment, and
every theorem that quantifies over patterns restricts itself to it. -/
def modeledPattern (p : String) : Bool :=
  p.data.all (fun c => c == '.' || regexLiteralChar c)

/-- One pattern character, for patterns inside the modeled fragment
(`modeledPattern`): `'.'` matches any character other than a line
terminator, every other character matches itself. -/
def regexCharMatches (p c : Char) : Bool :=
  if p == '.' then !isLineTerminator c else p == c

/-- Whether the pattern matches at the very start of the subject; for a
pattern inside the modeled fragment (`modeledPattern`) this is JavaScript
`RegExp` matching at index 0 — the pattern has fixed length, so no
quantifier or alternation semantics is involved. -/
def regexMatchesFront : List Char → List Char → Bool
  | [], _ => true
  | _ :: _, [] => false
  | p :: ps, c :: cs => regexCharMatches p c && regexMatchesFront ps cs

/-- Models the JavaScript expression `s.search(pattern) === 0` (the first
regex match starts at index 0 iff the pattern matches at index 0), for
patterns inside the modeled fragment (`modeledPattern`). -/
def jsSearchIsZero (pattern s : String) : Bool :=
  regexMatchesFront pattern.data s.data

/-! ### Data model -/

/-- The `git.CommittedFile` input record: `uri` (represented by its `fsPath`
string, the only part the algorithms compare), `gitRelativePath` and `status`
(JavaScript `null` becomes `none`). -/
structure GitFile where
  fsPath : String
  gitRelativePath : String
  status : Option String
deriving DecidableEq, Repr

/-- The `CommittedFile` tree item: the three `git.CommittedFile` fields plus
the display `label`. -/
structure CommittedFile where
  fsPath : String
  gitRelativePath : String
  status : Option String
  label : String
deriving DecidableEq, Repr

/-- A `CommittedFile` viewed as a `git.CommittedFile` (the interface the
builder functions consume). -/
def toGitFile (c : CommittedFile) : GitFile :=
  ⟨c.fsPath, c.gitRelativePath, c.status⟩

/-- The `FolderItem` tree item: `gitRelativePath`, display `label`, and the
mutable `subFolders` and `files` collections. -/
inductive FolderItem where
  | mk (gitRelativePath : String) (label : String)
       (subFolders : List FolderItem) (files : List CommittedFile)
deriving Repr

/-- The `_gitRelativePath` field of a `FolderItem`. -/
def FolderItem.gitRelativePath : FolderItem → String
  | .mk p _ _ _ => p

/-- The `label` of a `FolderItem`. -/
def FolderItem.label : FolderItem → String
  | .mk _ l _ _ => l

/-- The `subFolders` collection of a `FolderItem`. -/
def FolderItem.subFolders : FolderItem → List FolderItem
  | .mk _ _ subs _ => subs

/-- The `files` collection of a `FolderItem`. -/
def FolderItem.files : FolderItem → List CommittedFile
  | .mk _ _ _ files => files

/-! ### The tree builder -/

/-- `getFormatedLabel` of the source: basename, then the separator
`"  •  "` (space, no-break space, bullet, no-break space,
space — rendered `"  •  "`), then the dirname with `"."` replaced by the
empty string. -/
def getFormatedLabel (relativePath : String) : String :=
  let name : String := basename relativePath
  let dir : String := dirname relativePath
  let dir := if dir = "." then "" else dir
  name ++ " \u00A0\u2022\u00A0 " ++ dir

/-- `createCommittedFile` of the source: a `CommittedFile` carrying the
record's fields, labelled with `getFormatedLabel` of its git relative path. -/
def createCommittedFile (file : GitFile) : CommittedFile :=
  ⟨file.fsPath, file.gitRelativePath, file.status, getFormatedLabel file.gitRelativePath⟩

/-- The `subFolders.find(item => item.label === segments[i])` lookup of
`buildOneFileWithFolder`: the first subfolder carrying the given label. -/
def findFolder (s : String) : List FolderItem → Option FolderItem
  | [] => none
  | f :: fs => if f.label = s then some f else findFolder s fs

/-- In-place mutation of the found subfolder, purified: the first subfolder
whose label is `s` is replaced by `g`, every other entry is unchanged. -/
def replaceFirst (s : String) (g : FolderItem) : List FolderItem → List FolderItem
  | [] => []
  | f :: fs => if f.label = s then g :: fs else f :: replaceFirst s g fs

/-- The folder-walking loop of `buildOneFileWithFolder`: `segments` is the
remaining segment list, `acc` the accumulated `gitRelativePath`.  One segment
left: append the file to the current folder's `files`, labelled with that
segment.  More segments: descend into the first subfolder labelled with the
head segment — the source mutates the found folder in place, modelled by
replacing it — or, when none matches, into a fresh `FolderItem` with path
`acc` extended by the segment and a slash, pushed at the end. -/
def insertFile (file : GitFile) : List String → String → FolderItem → FolderItem
  | [], _, folder => folder
  | [last], _, .mk p l subs files =>
    .mk p l subs (files ++ [⟨file.fsPath, file.gitRelativePath, file.status, last⟩])
  | s :: rest, acc, .mk p l subs files =>
    match findFolder s subs with
    | some f =>
      .mk p l (replaceFirst s (insertFile file rest (acc ++ s ++ "/") f) subs) files
    | none =>
      .mk p l (subs ++ [insertFile file rest (acc ++ s ++ "/") (.mk (acc ++ s ++ "/") s [] [])])
        files

/-- `buildOneFileWithFolder` of the source: split the file's path — relative
to `relateivePath` when that string is non-empty (JavaScript truthiness),
splitting at backslashes and slashes, else the raw `gitRelativePath` split at
slashes — and walk/create the folder chain, starting the accumulated path at
`relateivePath`. -/
def buildOneFileWithFolder (rootFolder : FolderItem) (file : GitFile)
    (relateivePath : String) : FolderItem :=
  let segments : List String :=
    if relateivePath ≠ "" then jsSplitOnSeps (pathRelative relateivePath file.gitRelativePath)
    else jsSplitOnSlash file.gitRelativePath
  insertFile file segments relateivePath rootFolder

/-- `buildFileTree` of the source: with folders, insert every file through
`buildOneFileWithFolder`; without, append one `createCommittedFile` per
record to the root's `files`. -/
def buildFileTree (rootFolder : FolderItem) (files : List GitFile)
    (withFolder : Bool) : FolderItem :=
  if withFolder then
    files.foldl (fun r f => buildOneFileWithFolder r f "") rootFolder
  else
    match rootFolder with
    | .mk p l subs fs => .mk p l subs (fs ++ files.map createCommittedFile)

/-- `buildCommitFolder` of the source: a fresh root folder (empty
`gitRelativePath`) filled by `buildFileTree`. -/
def buildCommitFolder (label : String) (committedFiles : List GitFile)
    (withFolder : Bool) : FolderItem :=
  buildFileTree (.mk "" label [] []) committedFiles withFolder

/-- `buildFocusFolder` of the source.  The two external lookups are passed in
as values: `relativePath` is the awaited `git.getGitRelativePath` result and
`isFile` the `fs.lstatSync(...).isFile()` answer.  File case: a single
`CommittedFile` whose status comes from the record with strictly equal
(`===`) `uri.fsPath`, `null` when none matches.  Directory case: keep the
records whose `gitRelativePath.search(relativePath) === 0` and hand them to
`buildFileTree`. -/
def buildFocusFolder (label : String) (specifiedFsPath : String)
    (relativePath : String) (isFile : Bool) (committedFiles : List GitFile)
    (withFolder : Bool) : FolderItem :=
  if isFile then
    let file := committedFiles.find? (fun value => value.fsPath == specifiedFsPath)
    let focus : CommittedFile :=
      ⟨specifiedFsPath, relativePath,
        match file with | some f => f.status | none => none,
        getFormatedLabel relativePath⟩
    .mk "" label [] [focus]
  else
    let focus : List CommittedFile :=
      (committedFiles.filter (fun file => jsSearchIsZero relativePath file.gitRelativePath)).map
        createCommittedFile
    buildFileTree (.mk "" label [] []) (focus.map toGitFile) withFolder

/-! ### The tree transformer -/

/-- The file-collecting recursion of `buildFilesWithoutFolder`: the files a
call appends to `rootFolder.files`, in visitation order — the folder's own
files first, relabelled with `getFormatedLabel` of their path relative to the
root (backslashes normalized), then the subfolders' collections in order.
The emptied husk the source leaves behind is discarded by the caller. -/
def collectFilesWithoutFolder (rootPath : String) : FolderItem → List CommittedFile
  | .mk _ _ subs files =>
    files.map (fun file =>
      { file with
        label := getFormatedLabel
          (replaceBackslashes (pathRelative rootPath file.gitRelativePath)) })
    ++ (subs.attach.map (fun x => collectFilesWithoutFolder rootPath x.1)).flatten
decreasing_by
  simp_wf
  have := List.sizeOf_lt_of_mem x.2
  omega

/-- The non-null branch of `_showFilesWithoutFolder`: every subfolder is
drained into `parent.files` by `buildFilesWithoutFolder(parent, folder)` in
order, after which `parent.subFolders` is cleared.  `parent`'s own files are
not touched. -/
def showFilesWithoutFolderOp (parent : FolderItem) : FolderItem :=
  match parent with
  | .mk p l subs files =>
    .mk p l [] (files ++ (subs.map (collectFilesWithoutFolder p)).flatten)

/-- `buildFilesWithFolder` of the source: first transform every subfolder
recursively, then take the folder's `files`, clear the collection, and
re-insert each file through `buildOneFileWithFolder`, seeded with the
folder's own `gitRelativePath`. -/
def buildFilesWithFolder : FolderItem → FolderItem
  | .mk p l subs files =>
    let subs2 := subs.attach.map (fun x => buildFilesWithFolder x.1)
    files.foldl (fun r f => buildOneFileWithFolder r (toGitFile f) p) (.mk p l subs2 [])
decreasing_by
  simp_wf
  have := List.sizeOf_lt_of_mem x.2
  omega

/-! ### The tree data provider -/

/-- `CommittedTreeItem`: either tree item kind. -/
inductive CommittedTreeItem where
  | file (f : CommittedFile)
  | folder (f : FolderItem)

/-- One entry of the array `getChildren` returns: a tree item, or the
JavaScript value `undefined`. -/
inductive ChildEntry where
  | item (t : CommittedTreeItem)
  | undef

/-- `getChildren` of the source.  With no element the roots are returned.
Otherwise the element is cast (unchecked) to `FolderItem`; any defined
element is truthy, so the guard always takes the concat branch: for a real
folder this concatenates subfolders and files, while for a `CommittedFile`
both properties are the JavaScript value `undefined` and
`[].concat(undefined, undefined)` yields the two-element array
`[undefined, undefined]`. -/
def getChildren (rootFolder : List CommittedTreeItem) :
    Option CommittedTreeItem → List ChildEntry
  | none => rootFolder.map ChildEntry.item
  | some (.folder f) =>
    f.subFolders.map (fun s => ChildEntry.item (.folder s))
      ++ f.files.map (fun c => ChildEntry.item (.file c))
  | some (.file _) => [ChildEntry.undef, ChildEntry.undef]

/-! ### The `_update` rebuild, as an observable event trace

`_update` is asynchronous: every `await` is a suspension point at which the
current `_rootFolder` is observable by the host, and `fire` publishes a
change notification.  The trace below lists, in execution order, the
observable actions of one `_update` run for a given view context.  The
specified-path branches call the `async` builders `_buildPathSpecifiedCommitTree`
/ `_buildPathSpecifiedDiffBranchTree` *without* `await`: the callee runs
synchronously only until its first `await` (inside `buildFocusFolder`), so
control returns to `_update`, which fires immediately; the roots are pushed
when the awaited externals resolve, after the fire, with no further fire. -/
inductive UpdateAction where
  | clearRoots
  | awaitExternal
  | pushRoot (label : String)
  | fire
deriving DecidableEq, Repr

/-- The observable action trace of one `_update` run, determined by which of
`leftRef` / `rightRef` / `specifiedPath` the view context carries. -/
def updateTrace (leftRef rightRef : Option String) (hasSpecifiedPath : Bool) :
    List UpdateAction :=
  match rightRef with
  | none => [.clearRoots, .fire]
  | some rightRefValue =>
    [UpdateAction.clearRoots, .awaitExternal] ++
    match leftRef, hasSpecifiedPath with
    | none, false => [.pushRoot ("Changes of Commit " ++ rightRefValue), .fire]
    | some leftRefValue, false =>
      [.pushRoot ("Diffs between " ++ leftRefValue ++ " and " ++ rightRefValue), .fire]
    | none, true =>
      [.fire, .awaitExternal, .pushRoot "Focus",
        .pushRoot ("Changes of Commit " ++ rightRefValue)]
    | some leftRefValue, true =>
      [.fire, .awaitExternal, .pushRoot (leftRefValue ++ " .. " ++ rightRefValue)]

/-- The root labels accumulated after running a list of update actions. -/
def rootsAfter (actions : List UpdateAction) : List String :=
  actions.foldl
    (fun roots a =>
      match a with
      | .clearRoots => []
      | .pushRoot l => roots ++ [l]
      | _ => roots)
    []

/-- The root labels visible at the moment of the first `fire` of a trace,
`none` when the trace never fires. -/
def rootsAtFirstFire : List UpdateAction → Option (List String) :=
  go []
where
  /-- Walks the trace carrying the current roots until the first `fire`. -/
  go (roots : List String) : List UpdateAction → Option (List String)
    | [] => none
    | .fire :: _ => some roots
    | .clearRoots :: rest => go [] rest
    | .pushRoot l :: rest => go (roots ++ [l]) rest
    | .awaitExternal :: rest => go roots rest

/-! ### Derived observations used by the theorems -/

/-- Every `CommittedFile` in the tree, the folder's own files first, then the
subfolders' recursively, in order. -/
def allFiles : FolderItem → List CommittedFile
  | .mk _ _ subs files =>
    files ++ (subs.attach.map (fun x => allFiles x.1)).flatten
decreasing_by
  simp_wf
  have := List.sizeOf_lt_of_mem x.2
  omega

/-- The parent/child folder edges of a tree: one triple
`(parent path, child path, child label)` per subfolder link. -/
def folderTriples : FolderItem → List (String × String × String)
  | .mk p _ subs _ =>
    subs.map (fun s => (p, s.gitRelativePath, s.label))
      ++ (subs.attach.map (fun x => folderTriples x.1)).flatten
decreasing_by
  simp_wf
  have := List.sizeOf_lt_of_mem x.2
  omega

/-- Where each file sits: one pair `(containing folder path, file record)`
per file of the tree. -/
def filePlacements : FolderItem → List (String × GitFile)
  | .mk p _ subs files =>
    files.map (fun c => (p, toGitFile c))
      ++ (subs.attach.map (fun x => filePlacements x.1)).flatten
decreasing_by
  simp_wf
  have := List.sizeOf_lt_of_mem x.2
  omega

/-- Path consistency of a tree: every subfolder's stored path is its parent's
path extended by its label and a slash, and every file's stored path is its
folder's path extended by its label. -/
def consistent : FolderItem → Prop
  | .mk p _ subs files =>
    (∀ c ∈ files, c.gitRelativePath = p ++ c.label) ∧
    (∀ s ∈ subs, s.gitRelativePath = p ++ s.label ++ "/") ∧
    (∀ x ∈ subs.attach, consistent x.1)
decreasing_by
  simp_wf
  have := List.sizeOf_lt_of_mem x.2
  omega

/-- Label uniqueness at every level: no folder holds two subfolders with the
same label, nor two files with the same label. -/
def labelsOk : FolderItem → Bool
  | .mk _ _ subs files =>
    (subs.map FolderItem.label).Nodup &&
    ((files.map CommittedFile.label).Nodup &&
      (subs.attach.all (fun x => labelsOk x.1)))
decreasing_by
  simp_wf
  have := List.sizeOf_lt_of_mem x.2
  omega

/-- The folder edges an insertion of segment list `segs` starting at
accumulated path `acc` creates or traverses: one triple per non-final
segment. -/
def foldersOf : String → List String → List (String × String × String)
  | _, [] => []
  | _, [_] => []
  | acc, s :: rest => (acc, acc ++ s ++ "/", s) :: foldersOf (acc ++ s ++ "/") rest

/-- The folder path at which an insertion of segment list `segs` starting at
accumulated path `acc` deposits its file. -/
def deepPath : String → List String → String
  | acc, [] => acc
  | acc, [_] => acc
  | acc, s :: rest => deepPath (acc ++ s ++ "/") rest

/-- The segment list `buildOneFileWithFolder` uses for a file when the
relative-path argument is empty (the raw split of the git relative path). -/
def segsOf (f : GitFile) : List String :=
  jsSplitOnSlash f.gitRelativePath

/-- Joins segments with `"/"`; the inverse of `jsSplitOnSlash`. -/
def joinSegs (l : List String) : String :=
  String.mk (joinChar '/' (l.map String.data))

/-- The multiset-relevant content of a tree: every file of the tree reduced
to its `git.CommittedFile` part (identity `fsPath`, `gitRelativePath`,
`status`), labels and grouping forgotten. -/
def keys (t : FolderItem) : List GitFile :=
  (allFiles t).map toGitFile

/-- The example record list of the specification: `src/a.ts` modified,
`src/b.ts` added, `README.md` deleted. -/
def exampleRecords : List GitFile :=
  [⟨"/repo/src/a.ts", "src/a.ts", some "M"⟩,
   ⟨"/repo/src/b.ts", "src/b.ts", some "A"⟩,
   ⟨"/repo/README.md", "README.md", some "D"⟩]

/-- ASCII lower-casing of one character, for expressing the
"case-insensitive path equality" the specification describes. -/
def lowerChar (c : Char) : Char :=
  if 'A' ≤ c ∧ c ≤ 'Z' then Char.ofNat (c.toNat + 32) else c

/-- Case-insensitive string equality (ASCII), the comparison the
specification claims the single-file status lookup uses. -/
def ciEq (a b : String) : Bool :=
  a.data.map lowerChar == b.data.map lowerChar

/-- The subfolder half of the label-uniqueness invariant: at every level, no
two subfolders share a label. -/
def subsLabelsNodup : FolderItem → Prop
  | .mk _ _ subs _ =>
    (subs.map FolderItem.label).Nodup ∧ (∀ x ∈ subs.attach, subsLabelsNodup x.1)
decreasing_by
  simp_wf
  have := List.sizeOf_lt_of_mem x.2
  omega

/-- The file half of the label-uniqueness invariant: at every level, no two
files of one folder share a label. -/
def filesLabelsNodup : FolderItem → Prop
  | .mk _ _ subs files =>
    (files.map CommittedFile.label).Nodup ∧ (∀ x ∈ subs.attach, filesLabelsNodup x.1)
decreasing_by
  simp_wf
  have := List.sizeOf_lt_of_mem x.2
  omega

/-! ## Theorems -/

/-! ### Unfolding and induction infrastructure -/

/-- Structural induction for `FolderItem` through the nested `List`. -/
theorem FolderItem.ind (motive : FolderItem → Prop)
    (h : ∀ p l subs files, (∀ f ∈ subs, motive f) → motive (.mk p l subs files)) :
    ∀ t, motive t
  | .mk p l subs files => h p l subs files (fun f hf => FolderItem.ind motive h f)
decreasing_by
  simp_wf
  have := List.sizeOf_lt_of_mem hf
  omega

/-- Plain unfolding of `allFiles`. -/
theorem allFiles_mk (p l : String) (subs : List FolderItem) (files : List CommittedFile) :
    allFiles (.mk p l subs files) = files ++ (subs.map allFiles).flatten := by
  unfold allFiles
  simp [List.attach_map_coe]

/-- Plain unfolding of `folderTriples`. -/
theorem folderTriples_mk (p l : String) (subs : List FolderItem) (files : List CommittedFile) :
    folderTriples (.mk p l subs files) =
      subs.map (fun s => (p, s.gitRelativePath, s.label))
        ++ (subs.map folderTriples).flatten := by
  unfold folderTriples
  simp [List.attach_map_coe]

/-- Plain unfolding of `filePlacements`. -/
theorem filePlacements_mk (p l : String) (subs : List FolderItem) (files : List CommittedFile) :
    filePlacements (.mk p l subs files) =
      files.map (fun c => (p, toGitFile c)) ++ (subs.map filePlacements).flatten := by
  unfold filePlacements
  simp [List.attach_map_coe]

/-- Plain unfolding of `collectFilesWithoutFolder`. -/
theorem collectFilesWithoutFolder_mk (rootPath p l : String) (subs : List FolderItem)
    (files : List CommittedFile) :
    collectFilesWithoutFolder rootPath (.mk p l subs files) =
      files.map (fun file =>
        { file with
          label := getFormatedLabel
            (replaceBackslashes (pathRelative rootPath file.gitRelativePath)) })
      ++ (subs.map (collectFilesWithoutFolder rootPath)).flatten := by
  unfold collectFilesWithoutFolder
  simp [List.attach_map_coe]

/-- Plain unfolding of `buildFilesWithFolder`. -/
theorem buildFilesWithFolder_mk (p l : String) (subs : List FolderItem)
    (files : List CommittedFile) :
    buildFilesWithFolder (.mk p l subs files) =
      files.foldl (fun r f => buildOneFileWithFolder r (toGitFile f) p)
        (.mk p l (subs.map buildFilesWithFolder) []) := by
  unfold buildFilesWithFolder
  simp [List.attach_map_coe]

/-- Plain unfolding of `consistent`. -/
theorem consistent_mk (p l : String) (subs : List FolderItem) (files : List CommittedFile) :
    consistent (.mk p l subs files) ↔
      (∀ c ∈ files, c.gitRelativePath = p ++ c.label) ∧
      (∀ s ∈ subs, s.gitRelativePath = p ++ s.label ++ "/") ∧
      (∀ s ∈ subs, consistent s) := by
  rw [consistent.eq_def]
  constructor
  · rintro ⟨h1, h2, h3⟩
    exact ⟨h1, h2, fun s hs => h3 ⟨s, hs⟩ (List.mem_attach _ _)⟩
  · rintro ⟨h1, h2, h3⟩
    exact ⟨h1, h2, fun x _ => h3 x.1 x.2⟩

/-- Plain unfolding of `labelsOk`. -/
theorem labelsOk_mk (p l : String) (subs : List FolderItem) (files : List CommittedFile) :
    labelsOk (.mk p l subs files) =
      ((subs.map FolderItem.label).Nodup &&
        ((files.map CommittedFile.label).Nodup && subs.all labelsOk)) := by
  rw [labelsOk.eq_def]
  have hall : (subs.attach.all fun x => labelsOk x.1) = subs.all labelsOk := by
    rw [Bool.eq_iff_iff, List.all_eq_true, List.all_eq_true]
    constructor
    · intro h x hx
      exact h ⟨x, hx⟩ (List.mem_attach _ _)
    · intro h x _
      exact h x.1 x.2
  simp only [hall]

/-- `keys` of a constructed folder. -/
theorem keys_mk (p l : String) (subs : List FolderItem) (files : List CommittedFile) :
    keys (.mk p l subs files) = files.map toGitFile ++ (subs.map keys).flatten := by
  unfold keys
  rw [allFiles_mk, List.map_append, List.map_flatten, List.map_map]
  rfl

/-! ### Split / join facts -/

/-- A JavaScript split never yields an empty array. -/
theorem splitOnPred_ne_nil (sep : Char → Bool) (l : List Char) :
    splitOnPred sep l ≠ [] := by
  cases l with
  | nil => simp [splitOnPred]
  | cons a as =>
    rw [splitOnPred]
    rcases h : splitOnPred sep as with _ | ⟨s, ss⟩
    · simp
    · by_cases hsep : sep a <;> simp [hsep]

/-- `s.split('/')` never yields an empty array. -/
theorem jsSplitOnSlash_ne_nil (s : String) : jsSplitOnSlash s ≠ [] := by
  unfold jsSplitOnSlash
  intro h
  exact splitOnPred_ne_nil _ _ (List.map_eq_nil_iff.mp h)

/-- `s.split(/\\|\//)` never yields an empty array. -/
theorem jsSplitOnSeps_ne_nil (s : String) : jsSplitOnSeps s ≠ [] := by
  unfold jsSplitOnSeps
  intro h
  exact splitOnPred_ne_nil _ _ (List.map_eq_nil_iff.mp h)

/-- Joining with the split character undoes a character-level split. -/
theorem joinChar_splitOnPred (c : Char) (l : List Char) :
    joinChar c (splitOnPred (fun x => x == c) l) = l := by
  induction l with
  | nil => simp [splitOnPred, joinChar]
  | cons a as ih =>
    rw [splitOnPred]
    rcases h : splitOnPred (fun x => x == c) as with _ | ⟨s, ss⟩
    · exact absurd h (splitOnPred_ne_nil _ _)
    · rw [h] at ih
      by_cases hc : a = c
      · subst hc
        simpa [joinChar] using ih
      · have : (a == c) = false := by simp [hc]
        rw [this]
        simp only [Bool.false_eq_true, if_false]
        cases ss with
        | nil => simp_all [joinChar]
        | cons s2 ss2 => simp_all [joinChar]

/-- `joinSegs` undoes `jsSplitOnSlash`. -/
theorem joinSegs_jsSplitOnSlash (s : String) : joinSegs (jsSplitOnSlash s) = s := by
  unfold joinSegs jsSplitOnSlash
  rw [List.map_map]
  have hid : (String.data ∘ String.mk) = id := by
    funext x
    rfl
  rw [hid, List.map_id, joinChar_splitOnPred]

/-- `joinSegs` of a cons with a non-empty tail splits off one segment and a
slash. -/
theorem joinSegs_cons (s : String) (s2 : String) (rest : List String) :
    joinSegs (s :: s2 :: rest) = s ++ "/" ++ joinSegs (s2 :: rest) := by
  unfold joinSegs
  apply String.ext
  simp [joinChar, String.data_append]

/-! ### Multiset-of-files facts: every build/transform step preserves the
file records, only labels and grouping change -/

/-- Inserting with an empty segment list is the identity (never reached from
the source, whose splits are non-empty). -/
theorem insertFile_nil (f : GitFile) (acc : String) (t : FolderItem) :
    insertFile f [] acc t = t := by
  cases t
  rw [insertFile]

/-- The file node `insertFile` creates carries exactly the inserted record. -/
theorem toGitFile_node (f : GitFile) (last : String) :
    toGitFile ⟨f.fsPath, f.gitRelativePath, f.status, last⟩ = f := rfl

/-- `insertFile` adds exactly the inserted record to the tree's multiset of
file records. -/
theorem keys_insertFile (f : GitFile) :
    ∀ (segs : List String) (acc : String) (t : FolderItem), segs ≠ [] →
      (↑(keys (insertFile f segs acc t)) : Multiset GitFile) = {f} + ↑(keys t) := by
  intro segs
  induction segs with
  | nil => exact fun acc t h => absurd rfl h
  | cons s rest ih =>
    intro acc t _
    cases t with
    | mk p l subs files =>
      cases rest with
      | nil =>
        rw [insertFile, keys_mk, keys_mk]
        simp only [List.map_append, List.map_cons, List.map_nil, toGitFile_node,
          ← Multiset.coe_add, Multiset.coe_singleton, List.append_assoc]
        abel
      | cons s2 rest2 =>
        rw [insertFile]
        rcases hfind : findFolder s subs with _ | f0
        · rw [keys_mk, keys_mk]
          have h1 := ih (acc ++ s ++ "/") (.mk (acc ++ s ++ "/") s [] []) (by simp)
          rw [keys_mk] at h1
          simp only [List.map_nil, List.flatten_nil, List.append_nil, List.map_append,
            List.map_cons, List.flatten_append, List.flatten_cons] at h1 ⊢
          simp only [← Multiset.coe_add]
          rw [h1]
          simp only [Multiset.coe_nil, add_zero]
          abel
        · rw [keys_mk, keys_mk]
          have hrepl : ∀ (subs2 : List FolderItem) (f1 : FolderItem),
              findFolder s subs2 = some f1 →
              (↑(((replaceFirst s (insertFile f (s2 :: rest2) (acc ++ s ++ "/") f1) subs2).map
                  keys).flatten) : Multiset GitFile) =
                {f} + ↑((subs2.map keys).flatten) := by
            intro subs2
            induction subs2 with
            | nil => intro f1 h1; simp [findFolder] at h1
            | cons fh fs ihf =>
              intro f1 h1
              rw [findFolder] at h1
              by_cases hl : fh.label = s
              · rw [if_pos hl] at h1
                injection h1 with h1
                subst h1
                rw [replaceFirst, if_pos hl]
                have h2 := ih (acc ++ s ++ "/") fh (by simp)
                simp only [List.map_cons, List.flatten_cons, ← Multiset.coe_add]
                rw [h2]
                abel
              · rw [if_neg hl] at h1
                rw [replaceFirst, if_neg hl]
                simp only [List.map_cons, List.flatten_cons, ← Multiset.coe_add]
                rw [ihf f1 h1]
                abel
          simp only [← Multiset.coe_add]
          rw [hrepl subs f0 hfind]
          abel
        all_goals simp

/-- `buildOneFileWithFolder` adds exactly its record to the multiset of file
records. -/
theorem keys_buildOneFileWithFolder (r : FolderItem) (f : GitFile) (rel : String) :
    (↑(keys (buildOneFileWithFolder r f rel)) : Multiset GitFile) = {f} + ↑(keys r) := by
  unfold buildOneFileWithFolder
  by_cases h : rel ≠ ""
  · rw [if_pos h]
    exact keys_insertFile f _ rel r (jsSplitOnSeps_ne_nil _)
  · rw [if_neg h]
    exact keys_insertFile f _ rel r (jsSplitOnSlash_ne_nil _)

/-- Folding `buildOneFileWithFolder` over a record list adds exactly those
records. -/
theorem keys_foldl_buildOne (rel : String) :
    ∀ (files : List GitFile) (r : FolderItem),
      (↑(keys (files.foldl (fun r f => buildOneFileWithFolder r f rel) r)) : Multiset GitFile) =
        ↑files + ↑(keys r) := by
  intro files
  induction files with
  | nil => simp
  | cons f fs ih =>
    intro r
    rw [List.foldl_cons, ih, keys_buildOneFileWithFolder]
    simp only [← Multiset.cons_coe, ← Multiset.singleton_add]
    abel

/-- The `git.CommittedFile` part of `createCommittedFile` is the input
record. -/
theorem toGitFile_createCommittedFile (f : GitFile) :
    toGitFile (createCommittedFile f) = f := rfl

/-- `buildFileTree` adds exactly the handed records to the root's multiset of
file records, in both presentation modes. -/
theorem keys_buildFileTree (r : FolderItem) (files : List GitFile) (w : Bool) :
    (↑(keys (buildFileTree r files w)) : Multiset GitFile) = ↑files + ↑(keys r) := by
  unfold buildFileTree
  cases w with
  | true => simpa using keys_foldl_buildOne "" files r
  | false =>
    cases r with
    | mk p l subs fs =>
      simp only [Bool.false_eq_true, if_false, keys_mk, List.map_append, List.map_map]
      have : (toGitFile ∘ createCommittedFile) = id := by
        funext x
        rfl
      rw [this, List.map_id]
      simp only [← Multiset.coe_add]
      abel

/-- `buildCommitFolder` holds exactly the handed records. -/
theorem keys_buildCommitFolder (label : String) (files : List GitFile) (w : Bool) :
    (↑(keys (buildCommitFolder label files w)) : Multiset GitFile) = ↑files := by
  unfold buildCommitFolder
  rw [keys_buildFileTree, keys_mk]
  simp

/-- Draining a subtree into a flat file list keeps exactly its file
records (only labels change). -/
theorem keys_collectFilesWithoutFolder (rootPath : String) (t : FolderItem) :
    (↑((collectFilesWithoutFolder rootPath t).map toGitFile) : Multiset GitFile) =
      ↑(keys t) := by
  induction t using FolderItem.ind with
  | h p l subs files ihsubs =>
    rw [collectFilesWithoutFolder_mk, keys_mk]
    simp only [List.map_append, List.map_map, List.map_flatten, ← Multiset.coe_add]
    have h1 : (toGitFile ∘ fun file =>
        { file with
          label := getFormatedLabel
            (replaceBackslashes (pathRelative rootPath file.gitRelativePath)) }) =
        (toGitFile : CommittedFile → GitFile) := by
      funext x
      rfl
    rw [h1]
    congr 1
    have h2 : ∀ (subs2 : List FolderItem), (∀ s ∈ subs2, (↑((collectFilesWithoutFolder rootPath s).map toGitFile) : Multiset GitFile) = ↑(keys s)) →
        (↑(((subs2.map (collectFilesWithoutFolder rootPath)).map (List.map toGitFile)).flatten) : Multiset GitFile) =
          ↑((subs2.map keys).flatten) := by
      intro subs2
      induction subs2 with
      | nil => simp
      | cons s0 ss ihs =>
        intro hmem
        simp only [List.map_cons, List.flatten_cons, ← Multiset.coe_add]
        rw [ihs (fun s hs => hmem s (List.mem_cons_of_mem _ hs)),
          hmem s0 (List.mem_cons_self _ _)]
    simpa [List.map_map] using h2 subs ihsubs

/-- The root-level flatten operation keeps exactly the tree's file records. -/
theorem keys_showFilesWithoutFolderOp (t : FolderItem) :
    (↑(keys (showFilesWithoutFolderOp t)) : Multiset GitFile) = ↑(keys t) := by
  cases t with
  | mk p l subs files =>
    unfold showFilesWithoutFolderOp
    rw [keys_mk, keys_mk]
    simp only [List.map_nil, List.flatten_nil, List.append_nil, List.map_append,
      List.map_flatten, List.map_map, ← Multiset.coe_add]
    congr 1
    have h2 : ∀ (subs2 : List FolderItem),
        (↑(((subs2.map (collectFilesWithoutFolder p)).map (List.map toGitFile)).flatten) : Multiset GitFile) =
          ↑((subs2.map keys).flatten) := by
      intro subs2
      induction subs2 with
      | nil => simp
      | cons s0 ss ihs =>
        simp only [List.map_cons, List.flatten_cons, ← Multiset.coe_add]
        rw [ihs, keys_collectFilesWithoutFolder]
    simpa [Function.comp] using h2 subs

/-- The nest operation keeps exactly the tree's file records. -/
theorem keys_buildFilesWithFolder (t : FolderItem) :
    (↑(keys (buildFilesWithFolder t)) : Multiset GitFile) = ↑(keys t) := by
  induction t using FolderItem.ind with
  | h p l subs files ihsubs =>
    rw [buildFilesWithFolder_mk, keys_mk]
    have hfold : ∀ (fs2 : List CommittedFile) (r : FolderItem),
        (↑(keys (fs2.foldl (fun r f => buildOneFileWithFolder r (toGitFile f) p) r)) :
          Multiset GitFile) = ↑(fs2.map toGitFile) + ↑(keys r) := by
      intro fs2
      induction fs2 with
      | nil => simp
      | cons f fs ihf =>
        intro r
        rw [List.foldl_cons, ihf, keys_buildOneFileWithFolder]
        simp only [List.map_cons, ← Multiset.cons_coe, ← Multiset.singleton_add]
        abel
    rw [hfold, keys_mk]
    simp only [List.map_nil, List.nil_append, ← Multiset.coe_add]
    congr 1
    have h2 : ∀ (subs2 : List FolderItem), (∀ s ∈ subs2, (↑(keys (buildFilesWithFolder s)) : Multiset GitFile) = ↑(keys s)) →
        (↑(((subs2.map buildFilesWithFolder).map keys).flatten) : Multiset GitFile) =
          ↑((subs2.map keys).flatten) := by
      intro subs2
      induction subs2 with
      | nil => simp
      | cons s0 ss ihs =>
        intro hmem
        simp only [List.map_cons, List.flatten_cons, ← Multiset.coe_add]
        rw [ihs (fun s hs => hmem s (List.mem_cons_of_mem _ hs)),
          hmem s0 (List.mem_cons_self _ _)]
    simpa [List.map_map] using h2 subs ihsubs


/-! ### Claim C4 -/

/-- Claim C4: for every record list, building the nested tree, applying the
nest transform, then the root-level flatten transform, then the nest
transform again yields a tree with the same multiset of file identities
(`fsPath`) with the same per-file git relative path as the original nested
tree. -/
theorem C4_nest_flatten_nest_preserves_files (R : List GitFile) (label : String) :
    (↑((keys (buildFilesWithFolder (showFilesWithoutFolderOp
          (buildFilesWithFolder (buildCommitFolder label R true))))).map
        (fun g => (g.fsPath, g.gitRelativePath))) : Multiset (String × String)) =
      ↑((keys (buildCommitFolder label R true)).map
        (fun g => (g.fsPath, g.gitRelativePath))) := by
  have h : (↑(keys (buildFilesWithFolder (showFilesWithoutFolderOp
      (buildFilesWithFolder (buildCommitFolder label R true))))) : Multiset GitFile) =
      ↑(keys (buildCommitFolder label R true)) := by
    rw [keys_buildFilesWithFolder, keys_showFilesWithoutFolderOp, keys_buildFilesWithFolder]
  have h2 := congrArg (Multiset.map (fun g => (g.fsPath, g.gitRelativePath))) h
  simpa using h2

/-! ### Claim C8 -/

/-- Claim C8: for every relative path `p`, `getFormatedLabel` returns exactly
`basename p`, the bullet separator, and the dirname — with dirname `"."`
replaced by the empty string; the function is a pure total function of its
argument. -/
theorem C8_getFormatedLabel_spec (p : String) :
    getFormatedLabel p =
      basename p ++ "  •  " ++ (if dirname p = "." then "" else dirname p) := rfl

/-! ### Claim C10 -/

/-- Claim C10: `getChildren` applied to any `CommittedFile` element returns
the two-element sequence `[undefined, undefined]` (the unguarded folder cast
reads the `subFolders` and `files` properties, both `undefined` on a file,
and `[].concat(undefined, undefined)` has length two), never the empty
sequence. -/
theorem C10_getChildren_of_file (roots : List CommittedTreeItem) (c : CommittedFile) :
    getChildren roots (some (.file c)) = [ChildEntry.undef, ChildEntry.undef] ∧
      getChildren roots (some (.file c)) ≠ ([] : List ChildEntry) := by
  refine ⟨rfl, ?_⟩
  intro h
  simp [getChildren] at h

/-! ### Claim C3 -/

/-- Claim C3 fails on the code: in the specified-path commit view, the trace
of `_update` fires its change notification while `_rootFolder` is still
empty — `_buildPathSpecifiedCommitTree` is not awaited — and the `Focus` and
commit roots are pushed only afterwards, with no further notification. -/
theorem C3_fire_with_empty_roots :
    rootsAtFirstFire (updateTrace none (some "X") true) = some [] ∧
      rootsAfter (updateTrace none (some "X") true) =
        ["Focus", "Changes of Commit X"] := by
  constructor <;> rfl

/-! ### Claim C2 -/

/-- Claim C2 as stated is false: flattening the nested example tree yields the
labels `["README.md", "a.ts  •  src", "b.ts  •  src"]` — the
root's own `README.md` file keeps its nested-build label (no bullet suffix)
and stays first — not the claimed order with a relabelled `README.md` last. -/
theorem C2_counterexample :
    (showFilesWithoutFolderOp (buildCommitFolder "Changes of Commit X" exampleRecords true)).files.map
        CommittedFile.label =
      ["README.md", "a.ts  •  src", "b.ts  •  src"] ∧
    (showFilesWithoutFolderOp (buildCommitFolder "Changes of Commit X" exampleRecords true)).files.map
        CommittedFile.label ≠
      ["a.ts  •  src", "b.ts  •  src", "README.md  •  "] := by
  have hC : collectFilesWithoutFolder ""
      (.mk "src/" "src" []
        [⟨"/repo/src/a.ts", "src/a.ts", some "M", "a.ts"⟩,
         ⟨"/repo/src/b.ts", "src/b.ts", some "A", "b.ts"⟩]) =
      [⟨"/repo/src/a.ts", "src/a.ts", some "M", "a.ts  •  src"⟩,
       ⟨"/repo/src/b.ts", "src/b.ts", some "A", "b.ts  •  src"⟩] := by
    rw [collectFilesWithoutFolder_mk]
    rfl
  have hlabels : (showFilesWithoutFolderOp
      (buildCommitFolder "Changes of Commit X" exampleRecords true)).files.map
        CommittedFile.label = ["README.md", "a.ts  •  src", "b.ts  •  src"] := by
    show (showFilesWithoutFolderOp
      (.mk "" "Changes of Commit X"
        [.mk "src/" "src" []
          [⟨"/repo/src/a.ts", "src/a.ts", some "M", "a.ts"⟩,
           ⟨"/repo/src/b.ts", "src/b.ts", some "A", "b.ts"⟩]]
        [⟨"/repo/README.md", "README.md", some "D", "README.md"⟩])).files.map
        CommittedFile.label = _
    simp only [showFilesWithoutFolderOp, List.map_cons, List.map_nil, List.flatten_cons,
      List.flatten_nil, hC]
    rfl
  refine ⟨hlabels, ?_⟩
  rw [hlabels]
  decide

/-- Claim C2 amended: flattening the nested example tree yields exactly three
file nodes — `"README.md"` first (the root's own file, position and label
unchanged), then `"a.ts  •  src"` and `"b.ts  •  src"`
(descendant files, relabelled and appended in files-before-subfolders
order) — and no subfolders remain. -/
theorem C2_amended_flatten_example :
    showFilesWithoutFolderOp (buildCommitFolder "Changes of Commit X" exampleRecords true) =
      .mk "" "Changes of Commit X" []
        [⟨"/repo/README.md", "README.md", some "D", "README.md"⟩,
         ⟨"/repo/src/a.ts", "src/a.ts", some "M", "a.ts  •  src"⟩,
         ⟨"/repo/src/b.ts", "src/b.ts", some "A", "b.ts  •  src"⟩] := by
  have hC : collectFilesWithoutFolder ""
      (.mk "src/" "src" []
        [⟨"/repo/src/a.ts", "src/a.ts", some "M", "a.ts"⟩,
         ⟨"/repo/src/b.ts", "src/b.ts", some "A", "b.ts"⟩]) =
      [⟨"/repo/src/a.ts", "src/a.ts", some "M", "a.ts  •  src"⟩,
       ⟨"/repo/src/b.ts", "src/b.ts", some "A", "b.ts  •  src"⟩] := by
    rw [collectFilesWithoutFolder_mk]
    rfl
  show showFilesWithoutFolderOp
      (.mk "" "Changes of Commit X"
        [.mk "src/" "src" []
          [⟨"/repo/src/a.ts", "src/a.ts", some "M", "a.ts"⟩,
           ⟨"/repo/src/b.ts", "src/b.ts", some "A", "b.ts"⟩]]
        [⟨"/repo/README.md", "README.md", some "D", "README.md"⟩]) = _
  simp only [showFilesWithoutFolderOp, List.map_cons, List.map_nil, List.flatten_cons,
    List.flatten_nil, hC]
  rfl

/-! ### Claim C5 -/

/-- Claim C5 as stated is false: in the nested build of the example records
the root's direct file is labelled `"README.md"` — just the final segment,
with no bullet suffix — not `"README.md  •  "`. -/
theorem C5_counterexample :
    (buildCommitFolder "Changes of Commit X" exampleRecords true).files.map
        CommittedFile.label = ["README.md"] ∧
      ("README.md" : String) ≠ "README.md  •  " := by
  constructor
  · rfl
  · decide

/-- Claim C5 amended: the nested build of the example records yields a root
with exactly one child folder labelled `"src"` containing the two files
labelled `"a.ts"` and `"b.ts"`, and one direct file labelled `"README.md"`
(final segment only, no bullet suffix). -/
theorem C5_amended_nested_example :
    buildCommitFolder "Changes of Commit X" exampleRecords true =
      .mk "" "Changes of Commit X"
        [.mk "src/" "src" []
          [⟨"/repo/src/a.ts", "src/a.ts", some "M", "a.ts"⟩,
           ⟨"/repo/src/b.ts", "src/b.ts", some "A", "b.ts"⟩]]
        [⟨"/repo/README.md", "README.md", some "D", "README.md"⟩] := rfl

/-! ### Claim C1 -/

/-- Claim C1 as stated is false: the focus-directory filter is not a plain
string prefix test.  `search` coerces the focus path to a regular
expression, so the focus path `"a.b"` (`'.'` a wildcard) keeps the record
`"axb/f.ts"`, whose path does not have `"a.b"` as a string prefix. -/
theorem C1_counterexample :
    (buildFocusFolder "Focus" "/r/a.b" "a.b" false
        [⟨"/r/axb/f.ts", "axb/f.ts", some "M"⟩] false).files.map
      CommittedFile.gitRelativePath = ["axb/f.ts"] ∧
    "a.b".data.isPrefixOf "axb/f.ts".data = false := by
  constructor
  · rfl
  · decide

/-- On a fully literal pattern the modeled regex match at index 0 is exactly
the string prefix test. -/
theorem regexMatchesFront_literal :
    ∀ (p s : List Char), (∀ c ∈ p, regexLiteralChar c = true) →
      regexMatchesFront p s = p.isPrefixOf s := by
  intro p
  induction p with
  | nil => intro s _; cases s <;> rfl
  | cons a ps ih =>
    intro s hlit
    cases s with
    | nil => rfl
    | cons c cs =>
      have ha : regexLiteralChar a = true := hlit a (List.mem_cons_self _ _)
      have hadot : (a == '.') = false := by
        rcases h : (a == '.') with _ | _
        · rfl
        · unfold regexLiteralChar regexMetaChar at ha
          rw [h] at ha
          simp at ha
      rw [regexMatchesFront, List.isPrefixOf]
      unfold regexCharMatches
      rw [hadot]
      simp only [Bool.false_eq_true, if_false]
      rw [ih cs (fun c hc => hlit c (List.mem_cons_of_mem _ hc))]

/-- Claim C1 amended: in the focus-on-directory case, for every record list
and every focus relative path inside the modeled regular-expression fragment
(each character the `'.'` wildcard or an ordinary character — the shapes git
relative paths take; quantifiers, classes, anchors, alternation, escapes
and invalid patterns are outside the embedding), the records kept are
exactly those whose git relative path is matched at index 0 by the focus
path read as a regular expression (`search(...) === 0`). -/
theorem C1_amended_focus_directory_filter (records : List GitFile)
    (label fsPath rel : String) (w : Bool) (hrel : modeledPattern rel = true) :
    (↑(keys (buildFocusFolder label fsPath rel false records w)) : Multiset GitFile) =
      ↑(records.filter (fun f => jsSearchIsZero rel f.gitRelativePath)) := by
  unfold buildFocusFolder
  simp only [Bool.false_eq_true, if_false]
  rw [keys_buildFileTree, keys_mk]
  have h : ((records.filter (fun f => jsSearchIsZero rel f.gitRelativePath)).map
      createCommittedFile).map toGitFile =
      records.filter (fun f => jsSearchIsZero rel f.gitRelativePath) := by
    rw [List.map_map]
    have h2 : (toGitFile ∘ createCommittedFile) = id := by
      funext x
      rfl
    rw [h2, List.map_id]
  rw [h]
  simp

/-- Witness for the amended claim C1: the focus directory `"src"` over the
example records keeps exactly the two `src` files. -/
theorem C1_amended_witness :
    modeledPattern "src" = true ∧
      (↑(keys (buildFocusFolder "Focus" "/repo/src" "src" false exampleRecords false)) :
          Multiset GitFile) =
        ↑(exampleRecords.filter (fun f => jsSearchIsZero "src" f.gitRelativePath)) :=
  ⟨by decide,
    C1_amended_focus_directory_filter exampleRecords "Focus" "/repo/src" "src" false (by decide)⟩

/-! ### Claim C7 -/

/-- Claim C7 as stated is false: the single-file status lookup compares
`uri.fsPath` with strict `===` equality, not case-insensitively.  With one
record at `/r/A.ts` and the focus file `/r/a.ts`, the code produces an
absent status while a case-insensitive lookup would find status `"M"`. -/
theorem C7_counterexample :
    (buildFocusFolder "Focus" "/r/a.ts" "a.ts" true
        [⟨"/r/A.ts", "A.ts", some "M"⟩] false).files.map CommittedFile.status =
      [none] ∧
    (([⟨"/r/A.ts", "A.ts", some "M"⟩] : List GitFile).find?
        (fun v => ciEq v.fsPath "/r/a.ts")).bind GitFile.status =
      some "M" := by
  constructor
  · rfl
  · decide

/-- Claim C7 amended: in the focus-on-single-file case, for every record list
and focus path, the result is a root folder containing exactly one file
node; its status is found by exact (case-sensitive) string equality of the
records' `uri.fsPath` against the focus path, and it is absent whenever no
record matches. -/
theorem C7_amended_focus_file (records : List GitFile)
    (label fsPath rel : String) (w : Bool) :
    buildFocusFolder label fsPath rel true records w =
      .mk "" label []
        [⟨fsPath, rel,
          (records.find? (fun v => v.fsPath == fsPath)).bind GitFile.status,
          getFormatedLabel rel⟩] := by
  unfold buildFocusFolder
  simp only [if_true]
  rcases h : records.find? (fun v => v.fsPath == fsPath) with _ | f <;> rw [h] <;> rfl

/-! ### Find / replace / insert structural facts -/

/-- A successful `find` returns a member with the sought label. -/
theorem findFolder_eq_some (s : String) :
    ∀ (subs : List FolderItem) (f0 : FolderItem), findFolder s subs = some f0 →
      f0 ∈ subs ∧ f0.label = s := by
  intro subs
  induction subs with
  | nil => intro f0 h; simp [findFolder] at h
  | cons fh fs ih =>
    intro f0 h
    rw [findFolder] at h
    by_cases hl : fh.label = s
    · rw [if_pos hl] at h
      injection h with h
      subst h
      exact ⟨List.mem_cons_self _ _, hl⟩
    · rw [if_neg hl] at h
      rcases ih f0 h with ⟨h1, h2⟩
      exact ⟨List.mem_cons_of_mem _ h1, h2⟩

/-- A failed `find` means no member carries the sought label. -/
theorem findFolder_eq_none (s : String) :
    ∀ (subs : List FolderItem), findFolder s subs = none →
      ∀ f ∈ subs, f.label ≠ s := by
  intro subs
  induction subs with
  | nil => intro _ f hf; simp at hf
  | cons fh fs ih =>
    intro h f hf
    rw [findFolder] at h
    by_cases hl : fh.label = s
    · rw [if_pos hl] at h
      exact absurd h (by simp)
    · rw [if_neg hl] at h
      rcases List.mem_cons.mp hf with h2 | h2
      · subst h2
        exact hl
      · exact ih h f h2

/-- Every member of a `replaceFirst` result is an old member or the
replacement. -/
theorem mem_replaceFirst (s : String) (g : FolderItem) :
    ∀ (subs : List FolderItem) (x : FolderItem), x ∈ replaceFirst s g subs →
      x ∈ subs ∨ x = g := by
  intro subs
  induction subs with
  | nil => intro x hx; simp [replaceFirst] at hx
  | cons fh fs ih =>
    intro x hx
    rw [replaceFirst] at hx
    by_cases hl : fh.label = s
    · rw [if_pos hl] at hx
      rcases List.mem_cons.mp hx with h2 | h2
      · exact Or.inr h2
      · exact Or.inl (List.mem_cons_of_mem _ h2)
    · rw [if_neg hl] at hx
      rcases List.mem_cons.mp hx with h2 | h2
      · exact Or.inl (h2 ▸ List.mem_cons_self _ _)
      · rcases ih x h2 with h3 | h3
        · exact Or.inl (List.mem_cons_of_mem _ h3)
        · exact Or.inr h3

/-- Replacing by a folder with the sought label keeps the label sequence. -/
theorem map_label_replaceFirst (s : String) (g : FolderItem) (hg : g.label = s) :
    ∀ (subs : List FolderItem),
      (replaceFirst s g subs).map FolderItem.label = subs.map FolderItem.label := by
  intro subs
  induction subs with
  | nil => rfl
  | cons fh fs ih =>
    rw [replaceFirst]
    by_cases hl : fh.label = s
    · rw [if_pos hl]
      simp [hg, hl]
    · rw [if_neg hl]
      simp [ih]

/-- `insertFile` never changes the folder's own path and label. -/
theorem insertFile_headFields (f : GitFile) :
    ∀ (segs : List String) (acc : String) (t : FolderItem),
      (insertFile f segs acc t).gitRelativePath = t.gitRelativePath ∧
        (insertFile f segs acc t).label = t.label := by
  intro segs acc t
  cases t with
  | mk p l subs files =>
    cases segs with
    | nil =>
      rw [insertFile]
      exact ⟨rfl, rfl⟩
    | cons s rest =>
      cases rest with
      | nil =>
        rw [insertFile]
        exact ⟨rfl, rfl⟩
      | cons s2 rest2 =>
        rw [insertFile]
        · rcases findFolder s subs with _ | f0
          · exact ⟨rfl, rfl⟩
          · exact ⟨rfl, rfl⟩
        · simp

/-- `replaceFirst` keeps membership of the generic per-folder collections: a
value is collected over the replaced list iff it is collected over the
original list or the replacement contributes it, provided the replacement's
collection extends the replaced folder's collection by exactly the values
satisfying `P`. -/
theorem mem_flatten_map_replaceFirst {α : Type} (F : FolderItem → List α) (P : α → Prop)
    (s : String) (g : FolderItem) :
    ∀ (subs : List FolderItem) (f0 : FolderItem), findFolder s subs = some f0 →
      (∀ x, x ∈ F g ↔ x ∈ F f0 ∨ P x) →
      ∀ x, (x ∈ ((replaceFirst s g subs).map F).flatten ↔
        x ∈ ((subs.map F).flatten) ∨ P x) := by
  intro subs
  induction subs with
  | nil => intro f0 h; simp [findFolder] at h
  | cons fh fs ih =>
    intro f0 hfind hg x
    rw [findFolder] at hfind
    rw [replaceFirst]
    by_cases hl : fh.label = s
    · rw [if_pos hl] at hfind ⊢
      injection hfind with hfind
      subst hfind
      simp only [List.map_cons, List.flatten_cons, List.mem_append]
      rw [hg x]
      tauto
    · rw [if_neg hl] at hfind ⊢
      simp only [List.map_cons, List.flatten_cons, List.mem_append]
      rw [ih f0 hfind hg x]
      tauto

/-! ### Path-consistency of built trees -/

/-- Joining a single segment is that segment. -/
theorem joinSegs_single (x : String) : joinSegs [x] = x := rfl

/-- A fresh root (no children) is path-consistent. -/
theorem consistent_empty (p l : String) : consistent (.mk p l [] []) := by
  rw [consistent_mk]
  refine ⟨?_, ?_, ?_⟩ <;> intro c hc <;> simp at hc

/-- `insertFile` preserves path consistency when the walk starts at the
folder's own path and the inserted record's path is the accumulated path
followed by the joined segments — which is how every call site invokes it. -/
theorem consistent_insertFile (f : GitFile) :
    ∀ (segs : List String) (acc : String) (t : FolderItem), segs ≠ [] →
      consistent t → t.gitRelativePath = acc →
      f.gitRelativePath = acc ++ joinSegs segs →
      consistent (insertFile f segs acc t) := by
  intro segs
  induction segs with
  | nil => intro acc t h; exact absurd rfl h
  | cons s rest ih =>
    intro acc t _ hcons hpath hf
    cases t with
    | mk p l subs files =>
      have hp : p = acc := hpath
      cases rest with
      | nil =>
        rw [insertFile]
        rw [consistent_mk] at hcons ⊢
        obtain ⟨h1, h2, h3⟩ := hcons
        refine ⟨?_, h2, h3⟩
        intro c hc
        rcases List.mem_append.mp hc with h4 | h4
        · exact h1 c h4
        · simp only [List.mem_singleton] at h4
          subst h4
          rw [joinSegs_single] at hf
          simpa [hp] using hf
      | cons s2 rest2 =>
        have hf2 : f.gitRelativePath = (acc ++ s ++ "/") ++ joinSegs (s2 :: rest2) := by
          rw [hf, joinSegs_cons]
          rw [String.append_assoc, String.append_assoc, String.append_assoc]
        rw [insertFile]
        · rcases hfind : findFolder s subs with _ | f0
          · rw [consistent_mk] at hcons ⊢
            obtain ⟨h1, h2, h3⟩ := hcons
            refine ⟨h1, ?_, ?_⟩
            · intro u hu
              rcases List.mem_append.mp hu with h4 | h4
              · exact h2 u h4
              · simp only [List.mem_singleton] at h4
                subst h4
                rcases insertFile_headFields f (s2 :: rest2) (acc ++ s ++ "/")
                    (.mk (acc ++ s ++ "/") s [] []) with ⟨hgp, hgl⟩
                rw [hgp, hgl]
                show acc ++ s ++ "/" = p ++ s ++ "/"
                rw [hp]
            · intro u hu
              rcases List.mem_append.mp hu with h4 | h4
              · exact h3 u h4
              · simp only [List.mem_singleton] at h4
                subst h4
                exact ih (acc ++ s ++ "/") _ (by simp) (consistent_empty _ _) rfl hf2
          · rcases findFolder_eq_some s subs f0 hfind with ⟨hmem, hlab⟩
            rw [consistent_mk] at hcons ⊢
            obtain ⟨h1, h2, h3⟩ := hcons
            have hf0path : f0.gitRelativePath = acc ++ s ++ "/" := by
              rw [h2 f0 hmem, hlab, hp]
            refine ⟨h1, ?_, ?_⟩
            · intro u hu
              rcases mem_replaceFirst s _ subs u hu with h4 | h4
              · exact h2 u h4
              · subst h4
                rcases insertFile_headFields f (s2 :: rest2) (acc ++ s ++ "/") f0 with ⟨hgp, hgl⟩
                rw [hgp, hgl, hf0path, hlab]
                show acc ++ s ++ "/" = p ++ s ++ "/"
                rw [hp]
            · intro u hu
              rcases mem_replaceFirst s _ subs u hu with h4 | h4
              · exact h3 u h4
              · subst h4
                exact ih (acc ++ s ++ "/") f0 (by simp) (h3 f0 hmem) hf0path hf2
        · simp

/-! ### Where insertion adds folder edges and file placements -/

/-- Accessor reduction. -/
theorem gitRelativePath_mk (p l : String) (subs : List FolderItem)
    (files : List CommittedFile) : (FolderItem.mk p l subs files).gitRelativePath = p := rfl

/-- Accessor reduction. -/
theorem label_mk (p l : String) (subs : List FolderItem)
    (files : List CommittedFile) : (FolderItem.mk p l subs files).label = l := rfl

/-- Folder-edge membership through the combined per-subfolder collection:
each subfolder contributes its incoming edge and its own edges. -/
theorem mem_folderTriples_iff_flatten (p l : String) (subs : List FolderItem)
    (files : List CommittedFile) (x : String × String × String) :
    x ∈ folderTriples (.mk p l subs files) ↔
      x ∈ ((subs.map (fun u =>
        (p, u.gitRelativePath, u.label) :: folderTriples u)).flatten) := by
  rw [folderTriples_mk]
  constructor
  · intro h
    rcases List.mem_append.mp h with h | h
    · rcases List.mem_map.mp h with ⟨u, hu, hx⟩
      exact List.mem_flatten.mpr ⟨_, List.mem_map.mpr ⟨u, hu, rfl⟩,
        List.mem_cons.mpr (Or.inl hx.symm)⟩
    · rcases List.mem_flatten.mp h with ⟨lx, hlx, hx⟩
      rcases List.mem_map.mp hlx with ⟨u, hu, hlx2⟩
      subst hlx2
      exact List.mem_flatten.mpr ⟨_, List.mem_map.mpr ⟨u, hu, rfl⟩,
        List.mem_cons_of_mem _ hx⟩
  · intro h
    rcases List.mem_flatten.mp h with ⟨lx, hlx, hx⟩
    rcases List.mem_map.mp hlx with ⟨u, hu, hlx2⟩
    subst hlx2
    rcases List.mem_cons.mp hx with h | h
    · exact List.mem_append.mpr (Or.inl (List.mem_map.mpr ⟨u, hu, h.symm⟩))
    · exact List.mem_append.mpr (Or.inr (List.mem_flatten.mpr
        ⟨_, List.mem_map.mpr ⟨u, hu, rfl⟩, h⟩))

/-- `insertFile` on a consistent tree adds exactly the folder edges of the
walked segment chain. -/
theorem mem_folderTriples_insertFile (f : GitFile) :
    ∀ (segs : List String) (acc : String) (t : FolderItem), segs ≠ [] →
      consistent t → t.gitRelativePath = acc →
      ∀ x, (x ∈ folderTriples (insertFile f segs acc t) ↔
        x ∈ folderTriples t ∨ x ∈ foldersOf acc segs) := by
  intro segs
  induction segs with
  | nil => intro acc t h; exact absurd rfl h
  | cons s rest ih =>
    intro acc t _ hcons hpath x
    cases t with
    | mk p l subs files =>
      have hp : p = acc := hpath
      subst hp
      cases rest with
      | nil =>
        rw [insertFile, foldersOf]
        simp only [List.not_mem_nil, or_false]
        rw [folderTriples_mk, folderTriples_mk]
      | cons s2 rest2 =>
        rw [insertFile]
        · rcases hfind : findFolder s subs with _ | f0
          · rw [folderTriples_mk, folderTriples_mk]
            rcases insertFile_headFields f (s2 :: rest2) (p ++ s ++ "/")
                (.mk (p ++ s ++ "/") s [] []) with ⟨hgp, hgl⟩
            rw [gitRelativePath_mk] at hgp
            rw [label_mk] at hgl
            have hnt := ih (p ++ s ++ "/")
              (.mk (p ++ s ++ "/") s [] []) (by simp) (consistent_empty _ _) rfl x
            rw [folderTriples_mk] at hnt
            simp only [List.map_nil, List.flatten_nil, List.append_nil,
              List.not_mem_nil, false_or] at hnt
            simp only [List.map_append, List.flatten_append, List.map_cons, List.map_nil,
              List.flatten_cons, List.flatten_nil, List.append_nil, List.mem_append,
              List.mem_cons, List.mem_singleton, List.not_mem_nil, or_false,
              hgp, hgl, hnt, foldersOf]
            tauto
          · rcases findFolder_eq_some s subs f0 hfind with ⟨hmem, hlab⟩
            rcases (consistent_mk p l subs files).mp hcons with ⟨_, h2, h3⟩
            have hf0path : f0.gitRelativePath = p ++ s ++ "/" := by
              rw [h2 f0 hmem, hlab]
            rcases insertFile_headFields f (s2 :: rest2) (p ++ s ++ "/") f0 with ⟨hgp, hgl⟩
            rw [mem_folderTriples_iff_flatten, mem_folderTriples_iff_flatten]
            have hg : ∀ y, y ∈ (p, (insertFile f (s2 :: rest2) (p ++ s ++ "/")
                  f0).gitRelativePath, (insertFile f (s2 :: rest2) (p ++ s ++ "/") f0).label)
                  :: folderTriples (insertFile f (s2 :: rest2) (p ++ s ++ "/") f0) ↔
                y ∈ (p, f0.gitRelativePath, f0.label) :: folderTriples f0 ∨
                  y ∈ foldersOf (p ++ s ++ "/") (s2 :: rest2) := by
              intro y
              simp only [List.mem_cons, hgp, hgl]
              rw [ih (p ++ s ++ "/") f0 (by simp) (h3 f0 hmem) hf0path y]
              tauto
            rw [mem_flatten_map_replaceFirst
              (fun u => (p, u.gitRelativePath, u.label) :: folderTriples u)
              (fun y => y ∈ foldersOf (p ++ s ++ "/") (s2 :: rest2)) s
              (insertFile f (s2 :: rest2) (p ++ s ++ "/") f0) subs f0 hfind hg x]
            have hin : (p, p ++ s ++ "/", s) ∈
                ((subs.map (fun u =>
                  (p, u.gitRelativePath, u.label) :: folderTriples u)).flatten) := by
              apply List.mem_flatten.mpr
              refine ⟨_, List.mem_map.mpr ⟨f0, hmem, rfl⟩, ?_⟩
              rw [hf0path, hlab]
              exact List.mem_cons_self _ _
            simp only [foldersOf, List.mem_cons]
            constructor
            · rintro (h | h)
              · exact Or.inl h
              · exact Or.inr (Or.inr h)
            · rintro (h | h | h)
              · exact Or.inl h
              · exact Or.inl (h ▸ hin)
              · exact Or.inr h
        · simp

/-- `insertFile` on a consistent tree adds exactly one file placement, at the
deepest walked folder path. -/
theorem mem_filePlacements_insertFile (f : GitFile) :
    ∀ (segs : List String) (acc : String) (t : FolderItem), segs ≠ [] →
      consistent t → t.gitRelativePath = acc →
      ∀ y, (y ∈ filePlacements (insertFile f segs acc t) ↔
        y ∈ filePlacements t ∨ y = (deepPath acc segs, f)) := by
  intro segs
  induction segs with
  | nil => intro acc t h; exact absurd rfl h
  | cons s rest ih =>
    intro acc t _ hcons hpath y
    cases t with
    | mk p l subs files =>
      have hp : p = acc := hpath
      subst hp
      cases rest with
      | nil =>
        rw [insertFile, deepPath]
        rw [filePlacements_mk, filePlacements_mk]
        simp only [List.map_append, List.map_cons, List.map_nil, List.mem_append,
          List.mem_cons, List.mem_singleton, List.not_mem_nil, or_false, toGitFile_node]
        tauto
      | cons s2 rest2 =>
        rw [insertFile]
        · rcases hfind : findFolder s subs with _ | f0
          · rw [filePlacements_mk, filePlacements_mk, deepPath]
            have hnt := ih (p ++ s ++ "/")
              (.mk (p ++ s ++ "/") s [] []) (by simp) (consistent_empty _ _) rfl y
            rw [filePlacements_mk] at hnt
            simp only [List.map_nil, List.flatten_nil, List.append_nil,
              List.not_mem_nil, false_or] at hnt
            simp only [List.map_append, List.flatten_append, List.map_cons, List.map_nil,
              List.flatten_cons, List.flatten_nil, List.append_nil, List.mem_append,
              List.not_mem_nil, or_false, hnt]
            tauto
            all_goals simp
          · rcases findFolder_eq_some s subs f0 hfind with ⟨hmem, hlab⟩
            rcases (consistent_mk p l subs files).mp hcons with ⟨_, h2, h3⟩
            have hf0path : f0.gitRelativePath = p ++ s ++ "/" := by
              rw [h2 f0 hmem, hlab]
            rw [filePlacements_mk, filePlacements_mk, deepPath]
            have hg : ∀ z, z ∈ filePlacements (insertFile f (s2 :: rest2)
                  (p ++ s ++ "/") f0) ↔
                z ∈ filePlacements f0 ∨
                  z = (deepPath (p ++ s ++ "/") (s2 :: rest2), f) :=
              ih (p ++ s ++ "/") f0 (by simp) (h3 f0 hmem) hf0path
            rw [List.mem_append, List.mem_append,
              mem_flatten_map_replaceFirst filePlacements
                (fun z => z = (deepPath (p ++ s ++ "/") (s2 :: rest2), f)) s
                (insertFile f (s2 :: rest2) (p ++ s ++ "/") f0) subs f0 hfind hg y]
            tauto
            all_goals simp
        · simp

/-! ### Characterization of whole nested builds -/

/-- With an empty relative-path argument, `buildOneFileWithFolder` inserts
along the raw slash-split of the record's path. -/
theorem buildOne_empty_rel (r : FolderItem) (f : GitFile) :
    buildOneFileWithFolder r f "" = insertFile f (segsOf f) "" r := by
  unfold buildOneFileWithFolder segsOf
  simp

/-- Every record's path splits into a non-empty segment list that joins back
to the path itself. -/
theorem path_eq_joinSegs_segsOf (f : GitFile) :
    f.gitRelativePath = "" ++ joinSegs (segsOf f) := by
  rw [String.empty_append]
  unfold segsOf
  rw [joinSegs_jsSplitOnSlash]

/-- Folding the empty-relative-path insertion over a record list, starting
from a consistent root at path `""`: consistency and the root path are kept,
and the folder edges and file placements are exactly the starting ones plus
one contribution per record. -/
theorem foldl_insert_facts :
    ∀ (files : List GitFile) (t : FolderItem), consistent t → t.gitRelativePath = "" →
      consistent (files.foldl (fun r f => buildOneFileWithFolder r f "") t) ∧
      (files.foldl (fun r f => buildOneFileWithFolder r f "") t).gitRelativePath = "" ∧
      (∀ x, x ∈ folderTriples (files.foldl (fun r f => buildOneFileWithFolder r f "") t) ↔
        x ∈ folderTriples t ∨ ∃ f ∈ files, x ∈ foldersOf "" (segsOf f)) ∧
      (∀ y, y ∈ filePlacements (files.foldl (fun r f => buildOneFileWithFolder r f "") t) ↔
        y ∈ filePlacements t ∨ ∃ f ∈ files, y = (deepPath "" (segsOf f), f)) := by
  intro files
  induction files with
  | nil =>
    intro t hcons hpath
    refine ⟨hcons, hpath, ?_, ?_⟩ <;> intro x <;> simp
  | cons f fs ih =>
    intro t hcons hpath
    rw [List.foldl_cons, buildOne_empty_rel]
    have hne : segsOf f ≠ [] := jsSplitOnSlash_ne_nil _
    have hcons2 : consistent (insertFile f (segsOf f) "" t) :=
      consistent_insertFile f (segsOf f) "" t hne hcons hpath (path_eq_joinSegs_segsOf f)
    have hpath2 : (insertFile f (segsOf f) "" t).gitRelativePath = "" := by
      rw [(insertFile_headFields f (segsOf f) "" t).1, hpath]
    rcases ih (insertFile f (segsOf f) "" t) hcons2 hpath2 with ⟨ha, hb, hc, hd⟩
    refine ⟨ha, hb, ?_, ?_⟩
    · intro x
      rw [hc x, mem_folderTriples_insertFile f (segsOf f) "" t hne hcons hpath x]
      constructor
      · rintro ((h | h) | ⟨g, hg, hx⟩)
        · exact Or.inl h
        · exact Or.inr ⟨f, List.mem_cons_self _ _, h⟩
        · exact Or.inr ⟨g, List.mem_cons_of_mem _ hg, hx⟩
      · rintro (h | ⟨g, hg, hx⟩)
        · exact Or.inl (Or.inl h)
        · rcases List.mem_cons.mp hg with h2 | h2
          · subst h2
            exact Or.inl (Or.inr hx)
          · exact Or.inr ⟨g, h2, hx⟩
    · intro y
      rw [hd y, mem_filePlacements_insertFile f (segsOf f) "" t hne hcons hpath y]
      constructor
      · rintro ((h | h) | ⟨g, hg, hy⟩)
        · exact Or.inl h
        · exact Or.inr ⟨f, List.mem_cons_self _ _, h⟩
        · exact Or.inr ⟨g, List.mem_cons_of_mem _ hg, hy⟩
      · rintro (h | ⟨g, hg, hy⟩)
        · exact Or.inl (Or.inl h)
        · rcases List.mem_cons.mp hg with h2 | h2
          · subst h2
            exact Or.inl (Or.inr hy)
          · exact Or.inr ⟨g, h2, hy⟩

/-- The nested commit build has exactly the folder edges and file placements
determined by its records' split paths. -/
theorem mem_build_nested (R : List GitFile) (label : String) :
    consistent (buildCommitFolder label R true) ∧
    (buildCommitFolder label R true).gitRelativePath = "" ∧
    (∀ x, x ∈ folderTriples (buildCommitFolder label R true) ↔
      ∃ f ∈ R, x ∈ foldersOf "" (segsOf f)) ∧
    (∀ y, y ∈ filePlacements (buildCommitFolder label R true) ↔
      ∃ f ∈ R, y = (deepPath "" (segsOf f), f)) := by
  unfold buildCommitFolder buildFileTree
  simp only [if_true]
  rcases foldl_insert_facts R (.mk "" label [] []) (consistent_empty _ _) rfl with
    ⟨ha, hb, hc, hd⟩
  refine ⟨ha, hb, ?_, ?_⟩
  · intro x
    rw [hc x, folderTriples_mk]
    simp
  · intro y
    rw [hd y, filePlacements_mk]
    simp

/-! ### Claim C6 -/

/-- The nest step after a root-level flatten is a plain re-insertion of the
flattened files from a fresh-shaped root. -/
theorem buildFilesWithFolder_flat (lT : String) (F : List CommittedFile) :
    buildFilesWithFolder (.mk "" lT [] F) =
      (F.map toGitFile).foldl (fun r g => buildOneFileWithFolder r g "") (.mk "" lT [] []) := by
  rw [buildFilesWithFolder_mk]
  simp only [List.map_nil]
  exact (List.foldl_map toGitFile (fun r g => buildOneFileWithFolder r g "")
    F (FolderItem.mk "" lT [] [])).symm

/-- Claim C6: for every record list, flattening the nested tree and
re-nesting it at the root yields a folder structure isomorphic to the
original nested build — the same set of parent/child folder edges
(parent path, child path, child label) and the same set of file
attachments (folder path, file record). -/
theorem C6_flatten_nest_isomorphic (R : List GitFile) (label : String) :
    (folderTriples (buildFilesWithFolder (showFilesWithoutFolderOp
        (buildCommitFolder label R true)))).toFinset =
      (folderTriples (buildCommitFolder label R true)).toFinset ∧
    (filePlacements (buildFilesWithFolder (showFilesWithoutFolderOp
        (buildCommitFolder label R true)))).toFinset =
      (filePlacements (buildCommitFolder label R true)).toFinset := by
  rcases mem_build_nested R label with ⟨hconsT, hpathT, hcT, hdT⟩
  have hkeysT : (↑(keys (showFilesWithoutFolderOp (buildCommitFolder label R true))) :
      Multiset GitFile) = ↑R := by
    rw [keys_showFilesWithoutFolderOp, keys_buildCommitFolder]
  rcases hT : buildCommitFolder label R true with ⟨pT, lT, subsT, filesT⟩
  rw [hT] at hpathT hcT hdT hkeysT
  have hp : pT = "" := hpathT
  subst hp
  have hflat : showFilesWithoutFolderOp (FolderItem.mk "" lT subsT filesT) =
      .mk "" lT [] (filesT ++ (subsT.map (collectFilesWithoutFolder "")).flatten) := rfl
  rw [hflat] at hkeysT ⊢
  have hkeysF : keys (FolderItem.mk "" lT []
      (filesT ++ (subsT.map (collectFilesWithoutFolder "")).flatten)) =
      (filesT ++ (subsT.map (collectFilesWithoutFolder "")).flatten).map toGitFile := by
    rw [keys_mk]
    simp
  rw [hkeysF] at hkeysT
  have hmemiff : ∀ g : GitFile,
      (g ∈ (filesT ++ (subsT.map (collectFilesWithoutFolder "")).flatten).map toGitFile ↔
        g ∈ R) :=
    fun g => (Multiset.coe_eq_coe.mp hkeysT).mem_iff
  rw [buildFilesWithFolder_flat]
  rcases foldl_insert_facts
      ((filesT ++ (subsT.map (collectFilesWithoutFolder "")).flatten).map toGitFile)
      (.mk "" lT [] []) (consistent_empty _ _) rfl with ⟨_, _, hc2, hd2⟩
  constructor
  · apply Finset.ext
    intro x
    rw [List.mem_toFinset, List.mem_toFinset, hcT x, hc2 x]
    rw [folderTriples_mk]
    simp only [List.map_nil, List.flatten_nil, List.append_nil, List.not_mem_nil, false_or]
    constructor
    · rintro ⟨g, hg, hx⟩
      exact ⟨g, (hmemiff g).mp hg, hx⟩
    · rintro ⟨g, hg, hx⟩
      exact ⟨g, (hmemiff g).mpr hg, hx⟩
  · apply Finset.ext
    intro y
    rw [List.mem_toFinset, List.mem_toFinset, hdT y, hd2 y]
    rw [filePlacements_mk]
    simp only [List.map_nil, List.flatten_nil, List.append_nil, List.not_mem_nil, false_or]
    constructor
    · rintro ⟨g, hg, hy⟩
      exact ⟨g, (hmemiff g).mp hg, hy⟩
    · rintro ⟨g, hg, hy⟩
      exact ⟨g, (hmemiff g).mpr hg, hy⟩

/-! ### Claim C9: label uniqueness -/

/-- Plain unfolding of `subsLabelsNodup`. -/
theorem subsLabelsNodup_mk (p l : String) (subs : List FolderItem)
    (files : List CommittedFile) :
    subsLabelsNodup (.mk p l subs files) ↔
      (subs.map FolderItem.label).Nodup ∧ (∀ s ∈ subs, subsLabelsNodup s) := by
  rw [subsLabelsNodup.eq_def]
  constructor
  · rintro ⟨h1, h2⟩
    exact ⟨h1, fun s hs => h2 ⟨s, hs⟩ (List.mem_attach _ _)⟩
  · rintro ⟨h1, h2⟩
    exact ⟨h1, fun x _ => h2 x.1 x.2⟩

/-- Plain unfolding of `filesLabelsNodup`. -/
theorem filesLabelsNodup_mk (p l : String) (subs : List FolderItem)
    (files : List CommittedFile) :
    filesLabelsNodup (.mk p l subs files) ↔
      (files.map CommittedFile.label).Nodup ∧ (∀ s ∈ subs, filesLabelsNodup s) := by
  rw [filesLabelsNodup.eq_def]
  constructor
  · rintro ⟨h1, h2⟩
    exact ⟨h1, fun s hs => h2 ⟨s, hs⟩ (List.mem_attach _ _)⟩
  · rintro ⟨h1, h2⟩
    exact ⟨h1, fun x _ => h2 x.1 x.2⟩

/-- The builder's find-before-create keeps subfolder labels unique at every
level through every insertion. -/
theorem subsLabelsNodup_insertFile (f : GitFile) :
    ∀ (segs : List String) (acc : String) (t : FolderItem),
      subsLabelsNodup t → subsLabelsNodup (insertFile f segs acc t) := by
  intro segs
  induction segs with
  | nil =>
    intro acc t h
    cases t
    rw [insertFile]
    exact h
  | cons s rest ih =>
    intro acc t h
    cases t with
    | mk p l subs files =>
      cases rest with
      | nil =>
        rw [insertFile]
        rw [subsLabelsNodup_mk] at h ⊢
        exact h
      | cons s2 rest2 =>
        rw [insertFile]
        · rcases hfind : findFolder s subs with _ | f0
          · rw [subsLabelsNodup_mk] at h ⊢
            obtain ⟨h1, h2⟩ := h
            have hnotin := findFolder_eq_none s subs hfind
            have hntlab : (insertFile f (s2 :: rest2) (acc ++ s ++ "/")
                (.mk (acc ++ s ++ "/") s [] [])).label = s :=
              (insertFile_headFields f _ _ _).2
            constructor
            · rw [List.map_append, List.map_cons, List.map_nil, hntlab]
              rw [List.nodup_append]
              refine ⟨h1, List.nodup_singleton s, ?_⟩
              intro a ha hb
              simp only [List.mem_singleton] at hb
              subst hb
              rcases List.mem_map.mp ha with ⟨u, hu, hlu⟩
              exact hnotin u hu hlu
            · intro u hu
              rcases List.mem_append.mp hu with h3 | h3
              · exact h2 u h3
              · simp only [List.mem_singleton] at h3
                subst h3
                apply ih
                rw [subsLabelsNodup_mk]
                exact ⟨List.nodup_nil, fun u hu => absurd hu (List.not_mem_nil u)⟩
          · rcases findFolder_eq_some s subs f0 hfind with ⟨hmem, hlab⟩
            rw [subsLabelsNodup_mk] at h ⊢
            obtain ⟨h1, h2⟩ := h
            have hglab : (insertFile f (s2 :: rest2) (acc ++ s ++ "/") f0).label = s := by
              rw [(insertFile_headFields f _ _ _).2, hlab]
            constructor
            · rw [map_label_replaceFirst s _ hglab]
              exact h1
            · intro u hu
              rcases mem_replaceFirst s _ subs u hu with h3 | h3
              · exact h2 u h3
              · subst h3
                exact ih _ f0 (h2 f0 hmem)
        · simp

/-- On a path-consistent tree whose files carry pairwise distinct paths, no
folder holds two files with the same label: a file's path is its folder's
path followed by its label, so equal labels in one folder mean equal paths. -/
theorem filesLabelsNodup_of_consistent :
    ∀ (t : FolderItem), consistent t →
      ((allFiles t).map (fun c => c.gitRelativePath)).Nodup →
      filesLabelsNodup t := by
  intro t
  induction t using FolderItem.ind with
  | h p l subs files ihsubs =>
    intro hcons hnodup
    rcases (consistent_mk p l subs files).mp hcons with ⟨h1, _, h3⟩
    rw [allFiles_mk, List.map_append, List.nodup_append] at hnodup
    rcases hnodup with ⟨hn1, hn2, _⟩
    rw [filesLabelsNodup_mk]
    constructor
    · have heq : files.map (fun c => c.gitRelativePath) =
          (files.map CommittedFile.label).map (fun x => p ++ x) := by
        rw [List.map_map]
        exact List.map_congr_left (fun c hc => h1 c hc)
      rw [heq] at hn1
      exact List.Nodup.of_map _ hn1
    · intro s hs
      apply ihsubs s hs (h3 s hs)
      have hsub : List.Sublist (allFiles s) ((subs.map allFiles).flatten) :=
        List.sublist_flatten_of_mem (List.mem_map.mpr ⟨s, hs, rfl⟩)
      exact List.Nodup.sublist (List.Sublist.map _ hsub) hn2

/-- Over records with pairwise distinct paths, all files of the nested build
carry pairwise distinct paths. -/
theorem pathsNodup_build (R : List GitFile) (label : String)
    (h : (R.map GitFile.gitRelativePath).Nodup) :
    ((allFiles (buildCommitFolder label R true)).map (fun c => c.gitRelativePath)).Nodup := by
  have hkeys : (↑(keys (buildCommitFolder label R true)) : Multiset GitFile) = ↑R :=
    keys_buildCommitFolder label R true
  have h2 := congrArg (Multiset.map GitFile.gitRelativePath) hkeys
  simp only [Multiset.map_coe] at h2
  have h3 : (keys (buildCommitFolder label R true)).map GitFile.gitRelativePath =
      (allFiles (buildCommitFolder label R true)).map (fun c => c.gitRelativePath) := by
    unfold keys
    rw [List.map_map]
    rfl
  rw [h3] at h2
  have h4 := Multiset.coe_eq_coe.mp h2
  exact (List.Perm.nodup_iff h4).mpr h

/-- The two halves of the label-uniqueness invariant give `labelsOk`. -/
theorem labelsOk_of_parts :
    ∀ (t : FolderItem), subsLabelsNodup t → filesLabelsNodup t → labelsOk t = true := by
  intro t
  induction t using FolderItem.ind with
  | h p l subs files ihsubs =>
    intro hsubs hfiles
    rw [subsLabelsNodup_mk] at hsubs
    rw [filesLabelsNodup_mk] at hfiles
    rw [labelsOk_mk]
    simp only [Bool.and_eq_true, decide_eq_true_eq, List.all_eq_true]
    exact ⟨hsubs.1, hfiles.1, fun s hs => ihsubs s hs (hsubs.2 s hs) (hfiles.2 s hs)⟩

/-- The nested build keeps subfolder labels unique at every level. -/
theorem subsLabelsNodup_build (R : List GitFile) (label : String) :
    subsLabelsNodup (buildCommitFolder label R true) := by
  unfold buildCommitFolder buildFileTree
  simp only [if_true]
  have hroot : subsLabelsNodup (.mk "" label [] []) := by
    rw [subsLabelsNodup_mk]
    exact ⟨List.nodup_nil, fun u hu => absurd hu (List.not_mem_nil u)⟩
  generalize FolderItem.mk "" label ([] : List FolderItem) ([] : List CommittedFile) = t at hroot ⊢
  induction R generalizing t with
  | nil => exact hroot
  | cons f fs ih =>
    rw [List.foldl_cons, buildOne_empty_rel]
    exact ih _ (subsLabelsNodup_insertFile f (segsOf f) "" t hroot)

/-- Claim C9 as stated is false for the flattened builder: the two distinct
relative paths `"a/b"` and `"a/b/"` format to the same label
`"b \u00A0\u2022\u00A0 a"`, so the flat build places two files with the same label in one
folder. -/
theorem C9_counterexample :
    ((([⟨"/r/1", "a/b", some "M"⟩, ⟨"/r/2", "a/b/", some "A"⟩] : List GitFile)).map
        GitFile.gitRelativePath).Nodup ∧
    (buildCommitFolder "Changes of Commit X"
        [⟨"/r/1", "a/b", some "M"⟩, ⟨"/r/2", "a/b/", some "A"⟩] false).files.map
      CommittedFile.label = ["b \u00A0\u2022\u00A0 a", "b \u00A0\u2022\u00A0 a"] ∧
    labelsOk (buildCommitFolder "Changes of Commit X"
        [⟨"/r/1", "a/b", some "M"⟩, ⟨"/r/2", "a/b/", some "A"⟩] false) = false := by
  refine ⟨by decide, rfl, ?_⟩
  have hT : buildCommitFolder "Changes of Commit X"
      [⟨"/r/1", "a/b", some "M"⟩, ⟨"/r/2", "a/b/", some "A"⟩] false =
      .mk "" "Changes of Commit X" []
        [⟨"/r/1", "a/b", some "M", "b \u00A0\u2022\u00A0 a"⟩,
         ⟨"/r/2", "a/b/", some "A", "b \u00A0\u2022\u00A0 a"⟩] := rfl
  rw [hT, labelsOk_mk]
  decide

/-- Claim C9 amended: in every tree built by the *nested* builder from
records with pairwise distinct relative paths, no folder contains two child
folders with the same label and no folder contains two child files with the
same label (the builder finds an existing child folder by label before
creating one); the flattened builder can produce duplicate labels from
distinct paths. -/
theorem C9_amended_nested_labels_unique (R : List GitFile) (label : String)
    (h : (R.map GitFile.gitRelativePath).Nodup) :
    labelsOk (buildCommitFolder label R true) = true := by
  apply labelsOk_of_parts
  · exact subsLabelsNodup_build R label
  · exact filesLabelsNodup_of_consistent _ (mem_build_nested R label).1
      (pathsNodup_build R label h)

/-- Witness for the amended claim C9 at the example records. -/
theorem C9_amended_witness :
    ((exampleRecords.map GitFile.gitRelativePath).Nodup) ∧
      labelsOk (buildCommitFolder "Changes of Commit X" exampleRecords true) = true :=
  ⟨by decide, C9_amended_nested_labels_unique exampleRecords "Changes of Commit X" (by decide)⟩
